import Mathlib

/-!
Shallow embedding of the `ctrlq` keystroke-statistics core
(`src/keylogger.rs`) and proofs of its specified properties.

Modelling conventions:
* Rust `HashMap<String, V>` is modelled as an insertion-ordered association
  list `List (String × V)`; `entry(k).or_insert(0) += 1` updates the first
  matching entry or appends a fresh one.
* `u64` counters are modelled as `Nat` (the counters only ever increase by 1
  per observed event, so 64-bit wraparound is unreachable in practice).
* `DateTime<Utc>` timestamps are modelled as `Int` epoch seconds; every
  operation that calls `Utc::now()` in the source takes the current time (or
  the current calendar date, a `String` like the source's `%Y-%m-%d`
  formatting) as an explicit argument.
* `f64` arithmetic in `get_wpm` is modelled over `ℚ`; all quantities the
  claims evaluate are exactly representable.
-/

/-- Statistics aggregated by day (`DayStats` in `keylogger.rs`). -/
structure DayStats where
  keystrokes : Nat
  sessions : Nat
  most_active_hour : Option Nat
  key_distribution : List (String × Nat)
deriving Repr, DecidableEq

/-- Information about a single typing session (`TypingSession` in
`keylogger.rs`); `wpm : Option f64` is modelled over `ℚ`. -/
structure TypingSession where
  start : Int
  «end» : Int
  keystrokes : Nat
  wpm : Option ℚ
deriving Repr, DecidableEq

/-- Comprehensive typing statistics (`KeyStats` in `keylogger.rs`). -/
structure KeyStats where
  key_counts : List (String × Nat)
  key_sequences : List String
  session_start : Int
  total_keystrokes : Nat
  typing_sessions : List TypingSession
  daily_stats : List (String × DayStats)
deriving Repr, DecidableEq

/-- `KeyStats::new()`: all collections empty, counters zero, session start
set to the current time (taken as the argument `now`). -/
def KeyStats.new (now : Int) : KeyStats where
  key_counts := []
  key_sequences := []
  session_start := now
  total_keystrokes := 0
  typing_sessions := []
  daily_stats := []

/-- `*map.entry(key).or_insert(0) += 1` on an association-list map:
increment the first entry for `key`, or append `(key, 1)` if absent. -/
def bumpCount (m : List (String × Nat)) (key : String) : List (String × Nat) :=
  match m with
  | [] => [(key, 1)]
  | (k, v) :: rest =>
      if k = key then (k, v + 1) :: rest else (k, v) :: bumpCount rest key

/-- The recent-sequence update in `add_keypress`: push, then if the length
exceeds 100 remove the element at index 0. -/
def pushRecent (l : List String) (key : String) : List String :=
  let l2 := l ++ [key]
  if l2.length > 100 then l2.drop 1 else l2

/-- The daily-stats update in `add_keypress`:
`daily_stats.entry(today).or_insert_with(default)` followed by
`keystrokes += 1` and a `key_distribution` bump. -/
def bumpDay (m : List (String × DayStats)) (today key : String) :
    List (String × DayStats) :=
  match m with
  | [] => [(today, { keystrokes := 1, sessions := 0, most_active_hour := none,
                     key_distribution := [(key, 1)] })]
  | (d, st) :: rest =>
      if d = today then
        (d, { st with keystrokes := st.keystrokes + 1,
                      key_distribution := bumpCount st.key_distribution key }) :: rest
      else (d, st) :: bumpDay rest today key

/-- `KeyStats::add_keypress(&mut self, key)`; the source derives `today`
from `Utc::now()`, modelled as the explicit argument `today`. -/
def KeyStats.add_keypress (s : KeyStats) (key today : String) : KeyStats where
  key_counts := bumpCount s.key_counts key
  key_sequences := pushRecent s.key_sequences key
  session_start := s.session_start
  total_keystrokes := s.total_keystrokes + 1
  typing_sessions := s.typing_sessions
  daily_stats := bumpDay s.daily_stats today key

/-- `KeyStats::get_wpm(&self)`: `None` below 5 keystrokes, otherwise
`(total / 5.0) / minutes` with `minutes = elapsed whole seconds / 60`,
and `None` unless `minutes > 0`. -/
def KeyStats.get_wpm (s : KeyStats) (now : Int) : Option ℚ :=
  if s.total_keystrokes < 5 then none
  else
    let minutes : ℚ := ((now - s.session_start : Int) : ℚ) / 60
    if 0 < minutes then some ((s.total_keystrokes : ℚ) / 5 / minutes) else none

/-- The comparator of `get_top_keys`: `sort_by(|a, b| b.1.cmp(a.1))`, i.e.
descending by count; Rust's sort is stable, matching `insertionSort` with a
non-strict comparison. -/
def topKeyLE (a b : String × Nat) : Prop := b.2 ≤ a.2

instance : DecidableRel topKeyLE := fun a b => inferInstanceAs (Decidable (b.2 ≤ a.2))

instance : IsTotal (String × Nat) topKeyLE := ⟨fun a b => le_total b.2 a.2⟩

instance : IsTrans (String × Nat) topKeyLE := ⟨fun _ _ _ h h' => le_trans h' h⟩

/-- `KeyStats::get_top_keys(&self, limit)`: stable sort of the `key_counts`
entries by count descending, truncated to `limit`. -/
def KeyStats.get_top_keys (s : KeyStats) (limit : Nat) : List (String × Nat) :=
  (s.key_counts.insertionSort topKeyLE).take limit

/-- `KeyStats::reset(&mut self)`: clears every collection, zeroes the total,
sets `session_start` to the current time (the argument `now`). -/
def KeyStats.reset (_s : KeyStats) (now : Int) : KeyStats where
  key_counts := []
  key_sequences := []
  session_start := now
  total_keystrokes := 0
  typing_sessions := []
  daily_stats := []

/-- A sequence of `add_keypress` calls, each given as a
(key, calendar-date) pair, applied in order. -/
def runAdds (s : KeyStats) (evs : List (String × String)) : KeyStats :=
  evs.foldl (fun st e => st.add_keypress e.1 e.2) s

/-- Sum of the values of an association-list map with `Nat` values. -/
def sumVals (m : List (String × Nat)) : Nat := (m.map (·.2)).sum

/-- Sum of the per-day keystroke counters of `daily_stats`. -/
def sumDaily (m : List (String × DayStats)) : Nat :=
  (m.map (fun p => p.2.keystrokes)).sum

theorem sumVals_bumpCount (m : List (String × Nat)) (key : String) :
    sumVals (bumpCount m key) = sumVals m + 1 := by
  induction m with
  | nil => simp [bumpCount, sumVals]
  | cons p rest ih =>
      obtain ⟨k, v⟩ := p
      by_cases h : k = key <;> simp [bumpCount, h, sumVals] at ih ⊢ <;> omega

theorem sumDaily_bumpDay (m : List (String × DayStats)) (today key : String) :
    sumDaily (bumpDay m today key) = sumDaily m + 1 := by
  induction m with
  | nil => simp [bumpDay, sumDaily]
  | cons p rest ih =>
      obtain ⟨d, st⟩ := p
      by_cases h : d = today <;> simp [bumpDay, h, sumDaily] at ih ⊢ <;> omega

/-!
Model of one iteration of `KeyLogger::logging_loop` (the capture loop).
Per iteration the source, in order: drains at most one pending reset request
and, if one was pending, replaces the aggregate with `KeyStats::new()` and
immediately saves it; then records every captured key-down event via
`add_keypress`; then publishes a clone of the aggregate on the stats
channel; then, if the 30-second interval has elapsed, performs a periodic
save. The environment-driven inputs of an iteration (pending reset, current
time/date, captured key-down events, whether the periodic-save interval
elapsed) are gathered in `LoopInput`. The persisted file is modelled by its
decoded content, `Option KeyStats` (`none` = no file).
-/

/-- Environment inputs of one capture-loop iteration. -/
structure LoopInput where
  reset : Bool
  now : Int
  events : List (String × String)
  doSave : Bool
deriving Repr, DecidableEq

/-- Capture-loop state: the aggregate and the persisted-file content. -/
structure LoopState where
  stats : KeyStats
  file : Option KeyStats
deriving Repr, DecidableEq

/-- The reset branch at the top of an iteration: on a pending request,
`*stats = KeyStats::new()` followed by `save_stats(stats, &data_file)`. -/
def resetPhase (st : LoopState) (inp : LoopInput) : LoopState :=
  if inp.reset then
    { stats := KeyStats.new inp.now, file := some (KeyStats.new inp.now) }
  else st

/-- The event-processing phase: each captured key-down event is recorded
with `add_keypress` (key-up and key-repeat events do not mutate stats). -/
def eventsPhase (st : LoopState) (inp : LoopInput) : LoopState :=
  { st with stats := runAdds st.stats inp.events }

/-- The periodic save at the end of an iteration (taken when the 30-second
interval elapsed, an environment condition carried in `inp.doSave`). -/
def savePhase (st : LoopState) (inp : LoopInput) : LoopState :=
  if inp.doSave then { st with file := some st.stats } else st

/-- One full capture-loop iteration. -/
def loopStep (st : LoopState) (inp : LoopInput) : LoopState :=
  savePhase (eventsPhase (resetPhase st inp) inp) inp

/-- The snapshot published on the stats channel during an iteration: a clone
of the aggregate, taken after the reset and event phases (the subsequent
periodic save does not change the aggregate). -/
def publishedSnapshot (st : LoopState) (inp : LoopInput) : KeyStats :=
  (eventsPhase (resetPhase st inp) inp).stats

/-- The stream of snapshots published by a run of the capture loop over a
sequence of iteration inputs. -/
def runLoop (st : LoopState) : List LoopInput → List KeyStats
  | [] => []
  | inp :: rest => publishedSnapshot st inp :: runLoop (loopStep st inp) rest

/-!
Model of the persisted JSON file (`save_stats` / the load in
`KeyLogger::new`). The file content is modelled at the JSON-value level: a
`Json` tree rather than its text rendering. `encodeKeyStats` follows the
serde-derived format field by field (a struct is an object keyed by field
names, a `HashMap` an object, a `Vec` an array, an `Option` null-or-value);
`decodeKeyStats` is the corresponding decoder, failing (`none`) on any
shape mismatch, which models a `serde_json::from_str` parse error.
-/

/-- JSON values. -/
inductive Json where
  | null : Json
  | str : String → Json
  | int : Int → Json
  | num : ℚ → Json
  | arr : List Json → Json
  | obj : List (String × Json) → Json

/-- Decode a `u64` field: an integer, required to be non-negative. -/
def decNat : Json → Option Nat
  | .int i => if 0 ≤ i then some i.toNat else none
  | _ => none

/-- Decode a timestamp field (modelled as epoch seconds). -/
def decInt : Json → Option Int
  | .int i => some i
  | _ => none

/-- Decode an `Option<u8>`-style field: null or a non-negative integer. -/
def decOptNat : Json → Option (Option Nat)
  | .null => some none
  | .int i => if 0 ≤ i then some (some i.toNat) else none
  | _ => none

/-- Decode an `Option<f64>`-style field: null or a number. -/
def decOptRat : Json → Option (Option ℚ)
  | .null => some none
  | .num q => some (some q)
  | _ => none

/-- Encode an `Option<f64>`-style field. -/
def encOptRat : Option ℚ → Json
  | none => .null
  | some q => .num q

/-- Encode an `Option<u8>`-style field. -/
def encOptNat : Option Nat → Json
  | none => .null
  | some n => .int n

/-- Encode a `HashMap<String, u64>` as a JSON object. -/
def encNatMap (m : List (String × Nat)) : Json :=
  .obj (m.map fun p => (p.1, Json.int p.2))

/-- Decode the entries of a `HashMap<String, u64>` object. -/
def decNatMapEntries : List (String × Json) → Option (List (String × Nat))
  | [] => some []
  | (k, j) :: rest => do
      let v ← decNat j
      let r ← decNatMapEntries rest
      pure ((k, v) :: r)

/-- Decode a `HashMap<String, u64>`. -/
def decNatMap : Json → Option (List (String × Nat))
  | .obj fs => decNatMapEntries fs
  | _ => none

/-- Encode a `Vec<String>` as a JSON array. -/
def encStrList (l : List String) : Json := .arr (l.map Json.str)

/-- Decode the elements of a `Vec<String>` array. -/
def decStrListElems : List Json → Option (List String)
  | [] => some []
  | .str s :: rest => do
      let r ← decStrListElems rest
      pure (s :: r)
  | _ => none

/-- Decode a `Vec<String>`. -/
def decStrList : Json → Option (List String)
  | .arr xs => decStrListElems xs
  | _ => none

/-- Field lookup in a JSON object, as serde does by field name. -/
def getField (fs : List (String × Json)) (name : String) : Option Json :=
  fs.lookup name

/-- Encode a `TypingSession`. -/
def encTypingSession (ts : TypingSession) : Json :=
  .obj [("start", .int ts.start), ("end", .int ts.«end»),
        ("keystrokes", .int ts.keystrokes), ("wpm", encOptRat ts.wpm)]

/-- Decode a `TypingSession`. -/
def decTypingSession : Json → Option TypingSession
  | .obj fs => do
      let s ← getField fs "start" >>= decInt
      let e ← getField fs "end" >>= decInt
      let k ← getField fs "keystrokes" >>= decNat
      let w ← getField fs "wpm" >>= decOptRat
      pure ⟨s, e, k, w⟩
  | _ => none

/-- Encode a `Vec<TypingSession>`. -/
def encSessions (l : List TypingSession) : Json :=
  .arr (l.map encTypingSession)

/-- Decode the elements of a `Vec<TypingSession>` array. -/
def decSessionsElems : List Json → Option (List TypingSession)
  | [] => some []
  | j :: rest => do
      let ts ← decTypingSession j
      let r ← decSessionsElems rest
      pure (ts :: r)

/-- Decode a `Vec<TypingSession>`. -/
def decSessions : Json → Option (List TypingSession)
  | .arr xs => decSessionsElems xs
  | _ => none

/-- Encode a `DayStats`. -/
def encDayStats (d : DayStats) : Json :=
  .obj [("keystrokes", .int d.keystrokes), ("sessions", .int d.sessions),
        ("most_active_hour", encOptNat d.most_active_hour),
        ("key_distribution", encNatMap d.key_distribution)]

/-- Decode a `DayStats`. -/
def decDayStats : Json → Option DayStats
  | .obj fs => do
      let k ← getField fs "keystrokes" >>= decNat
      let se ← getField fs "sessions" >>= decNat
      let h ← getField fs "most_active_hour" >>= decOptNat
      let kd ← getField fs "key_distribution" >>= decNatMap
      pure ⟨k, se, h, kd⟩
  | _ => none

/-- Encode a `HashMap<String, DayStats>`. -/
def encDayMap (m : List (String × DayStats)) : Json :=
  .obj (m.map fun p => (p.1, encDayStats p.2))

/-- Decode the entries of a `HashMap<String, DayStats>` object. -/
def decDayMapEntries : List (String × Json) → Option (List (String × DayStats))
  | [] => some []
  | (k, j) :: rest => do
      let d ← decDayStats j
      let r ← decDayMapEntries rest
      pure ((k, d) :: r)

/-- Decode a `HashMap<String, DayStats>`. -/
def decDayMap : Json → Option (List (String × DayStats))
  | .obj fs => decDayMapEntries fs
  | _ => none

/-- `save_stats`: the serde serialization of a `KeyStats`, at JSON-value
level. -/
def encodeKeyStats (s : KeyStats) : Json :=
  .obj [("key_counts", encNatMap s.key_counts),
        ("key_sequences", encStrList s.key_sequences),
        ("session_start", .int s.session_start),
        ("total_keystrokes", .int s.total_keystrokes),
        ("typing_sessions", encSessions s.typing_sessions),
        ("daily_stats", encDayMap s.daily_stats)]

/-- `serde_json::from_str::<KeyStats>`: the decoder; `none` models a parse
error. -/
def decodeKeyStats : Json → Option KeyStats
  | .obj fs => do
      let kc ← getField fs "key_counts" >>= decNatMap
      let ks ← getField fs "key_sequences" >>= decStrList
      let ss ← getField fs "session_start" >>= decInt
      let tk ← getField fs "total_keystrokes" >>= decNat
      let ty ← getField fs "typing_sessions" >>= decSessions
      let ds ← getField fs "daily_stats" >>= decDayMap
      pure ⟨kc, ks, ss, tk, ty, ds⟩
  | _ => none

/-- The load in `KeyLogger::new`: a missing file (`none`) yields a fresh
aggregate, and a file whose content fails to decode also yields a fresh
aggregate (`unwrap_or_else(|_| KeyStats::new())`); no error is surfaced. -/
def loadStats (file : Option Json) (now : Int) : KeyStats :=
  match file with
  | none => KeyStats.new now
  | some j => (decodeKeyStats j).getD (KeyStats.new now)

/-!
Helper lemmas about single `add_keypress` steps and runs.
-/

theorem runAdds_nil (s : KeyStats) : runAdds s [] = s := rfl

theorem runAdds_cons (s : KeyStats) (e : String × String)
    (evs : List (String × String)) :
    runAdds s (e :: evs) = runAdds (s.add_keypress e.1 e.2) evs := rfl

theorem runAdds_total (s : KeyStats) (evs : List (String × String)) :
    (runAdds s evs).total_keystrokes = s.total_keystrokes + evs.length := by
  induction evs generalizing s with
  | nil => simp [runAdds]
  | cons e rest ih =>
      rw [runAdds_cons, ih]
      simp [KeyStats.add_keypress]
      omega

theorem runAdds_count_invariant (evs : List (String × String)) (s : KeyStats)
    (h : s.total_keystrokes = sumVals s.key_counts) :
    (runAdds s evs).total_keystrokes = sumVals (runAdds s evs).key_counts := by
  induction evs generalizing s with
  | nil => exact h
  | cons e rest ih =>
      rw [runAdds_cons]
      exact ih _ (by simp [KeyStats.add_keypress, sumVals_bumpCount, h])

theorem bumpDay_distribution (m : List (String × DayStats)) (today key : String)
    (h : ∀ p ∈ m, sumVals p.2.key_distribution = p.2.keystrokes) :
    ∀ p ∈ bumpDay m today key, sumVals p.2.key_distribution = p.2.keystrokes := by
  induction m with
  | nil =>
      intro p hp
      simp [bumpDay] at hp
      subst hp
      simp [sumVals]
  | cons q rest ih =>
      obtain ⟨d, st⟩ := q
      intro p hp
      by_cases hd : d = today
      · simp [bumpDay, hd] at hp
        rcases hp with hp | hp
        · subst hp
          have := h (today, st) (by simp [hd])
          simp [sumVals_bumpCount, this]
        · exact h p (by simp [hp])
      · simp [bumpDay, hd] at hp
        rcases hp with hp | hp
        · subst hp
          exact h (d, st) (by simp)
        · exact ih (fun q hq => h q (by simp [hq])) p hp

theorem runAdds_daily_invariant (evs : List (String × String)) (s : KeyStats)
    (h1 : sumDaily s.daily_stats = s.total_keystrokes)
    (h2 : ∀ p ∈ s.daily_stats, sumVals p.2.key_distribution = p.2.keystrokes) :
    sumDaily (runAdds s evs).daily_stats = (runAdds s evs).total_keystrokes ∧
    ∀ p ∈ (runAdds s evs).daily_stats,
      sumVals p.2.key_distribution = p.2.keystrokes := by
  induction evs generalizing s with
  | nil => exact ⟨h1, h2⟩
  | cons e rest ih =>
      rw [runAdds_cons]
      refine ih _ ?_ ?_
      · simp [KeyStats.add_keypress, sumDaily_bumpDay, h1]
      · exact bumpDay_distribution _ _ _ h2

/-- C1: starting from a fresh or reset aggregate, after every sequence of
`add_keypress` calls `total_keystrokes` equals the sum of the `key_counts`
values (invariant I1), and reset preserves the equality. -/
theorem count_invariant_runs (now : Int) (s0 : KeyStats)
    (evs : List (String × String)) :
    (runAdds (KeyStats.new now) evs).total_keystrokes
        = sumVals (runAdds (KeyStats.new now) evs).key_counts ∧
    (runAdds (s0.reset now) evs).total_keystrokes
        = sumVals (runAdds (s0.reset now) evs).key_counts ∧
    (s0.reset now).total_keystrokes = sumVals (s0.reset now).key_counts :=
  ⟨runAdds_count_invariant evs _ rfl, runAdds_count_invariant evs _ rfl, rfl⟩

/-- C6: after `reset()` every collection is empty, the total is zero and
`session_start` is the reset time; the result is the fresh aggregate,
independent of the prior state. -/
theorem reset_full_replacement (s : KeyStats) (now : Int) :
    (s.reset now).total_keystrokes = 0 ∧
    (s.reset now).key_counts = [] ∧
    (s.reset now).key_sequences = [] ∧
    (s.reset now).typing_sessions = [] ∧
    (s.reset now).daily_stats = [] ∧
    (s.reset now).session_start = now ∧
    s.reset now = KeyStats.new now :=
  ⟨rfl, rfl, rfl, rfl, rfl, rfl, rfl⟩

/-- C10: on every aggregate reachable from a fresh or reset aggregate via
`add_keypress` (with arbitrary event dates), the per-day keystroke counters
of `daily_stats` sum to `total_keystrokes`, and within each day the
`key_distribution` values sum to that day's keystroke counter. -/
theorem daily_stats_invariant (now : Int) (s0 : KeyStats)
    (evs : List (String × String)) :
    (sumDaily (runAdds (KeyStats.new now) evs).daily_stats
        = (runAdds (KeyStats.new now) evs).total_keystrokes ∧
      ((runAdds (KeyStats.new now) evs).daily_stats.all
        (fun p => sumVals p.2.key_distribution == p.2.keystrokes)) = true) ∧
    (sumDaily (runAdds (s0.reset now) evs).daily_stats
        = (runAdds (s0.reset now) evs).total_keystrokes ∧
      ((runAdds (s0.reset now) evs).daily_stats.all
        (fun p => sumVals p.2.key_distribution == p.2.keystrokes)) = true) := by
  have h1 := runAdds_daily_invariant evs (KeyStats.new now) rfl (by simp [KeyStats.new])
  have h2 := runAdds_daily_invariant evs (s0.reset now) rfl (by simp [KeyStats.reset])
  refine ⟨⟨h1.1, ?_⟩, ⟨h2.1, ?_⟩⟩
  · rw [List.all_eq_true]
    intro p hp
    exact beq_iff_eq.mpr (h1.2 p hp)
  · rw [List.all_eq_true]
    intro p hp
    exact beq_iff_eq.mpr (h2.2 p hp)

/-!
Bounded recency: the `key_sequences` ring after a run from a fresh
aggregate.
-/

theorem pushRecent_lastN (ks : List String) (k : String) :
    pushRecent (ks.drop (ks.length - 100)) k
      = (ks ++ [k]).drop ((ks ++ [k]).length - 100) := by
  by_cases h : ks.length < 100
  · have h0 : ks.length - 100 = 0 := by omega
    have h1 : (ks ++ [k]).length - 100 = 0 := by simp; omega
    simp only [h0, h1, List.drop_zero]
    simp [pushRecent]
    intro hc
    exact absurd hc (by omega)
  · have hlen : (ks.drop (ks.length - 100)).length = 100 := by
      rw [List.length_drop]; omega
    have hgt : ((ks.drop (ks.length - 100)) ++ [k]).length > 100 := by
      simp [hlen]
    rw [pushRecent]
    simp only [hgt, if_pos]
    have h2 : (1 : Nat) ≤ (ks.drop (ks.length - 100)).length := by omega
    rw [List.drop_append_of_le_length h2, List.drop_drop]
    have h3 : (ks ++ [k]).length - 100 = ks.length - 100 + 1 := by simp; omega
    have h4 : ks.length - 100 + 1 ≤ ks.length := by omega
    rw [h3, List.drop_append_of_le_length h4]

theorem runAdds_key_sequences (evs : List (String × String)) (s : KeyStats)
    (ks : List String) (h : s.key_sequences = ks.drop (ks.length - 100)) :
    (runAdds s evs).key_sequences
      = (ks ++ evs.map Prod.fst).drop ((ks ++ evs.map Prod.fst).length - 100) := by
  induction evs generalizing s ks with
  | nil => simpa using h
  | cons e rest ih =>
      rw [runAdds_cons]
      have hstep : (s.add_keypress e.1 e.2).key_sequences
          = (ks ++ [e.1]).drop ((ks ++ [e.1]).length - 100) := by
        rw [KeyStats.add_keypress, h]
        exact pushRecent_lastN ks e.1
      have := ih _ _ hstep
      rw [this]
      simp [List.append_assoc]

/-- C2: from a fresh aggregate, after the calls in `evs` the recent sequence
equals the most recent `min N 100` key identifiers in call order (the suffix
of the pressed keys obtained by dropping all but the last 100), its length
is `min N 100`, and it never exceeds 100. -/
theorem recent_sequence_bounded (now : Int) (evs : List (String × String)) :
    (runAdds (KeyStats.new now) evs).key_sequences
        = (evs.map Prod.fst).drop (evs.length - 100) ∧
    (runAdds (KeyStats.new now) evs).key_sequences.length = min evs.length 100 ∧
    (runAdds (KeyStats.new now) evs).key_sequences.length ≤ 100 := by
  have h := runAdds_key_sequences evs (KeyStats.new now) [] rfl
  simp only [List.nil_append, List.length_map] at h
  refine ⟨h, ?_, ?_⟩
  · rw [h, List.length_drop, List.length_map]; omega
  · rw [h, List.length_drop, List.length_map]; omega

/-- C5: `get_wpm` is absent below 5 keystrokes, absent for non-positive
elapsed time, and otherwise equals `(total / 5) / (elapsedSeconds / 60)`
with whole-second resolution. -/
theorem get_wpm_spec (s : KeyStats) (now : Int) :
    (s.total_keystrokes < 5 → s.get_wpm now = none) ∧
    (now - s.session_start ≤ 0 → s.get_wpm now = none) ∧
    (5 ≤ s.total_keystrokes → 0 < now - s.session_start →
      s.get_wpm now = some ((s.total_keystrokes : ℚ) / 5 /
        (((now - s.session_start : Int) : ℚ) / 60))) := by
  refine ⟨fun h => by simp [KeyStats.get_wpm, h], fun h => ?_, fun h h' => ?_⟩
  · rw [KeyStats.get_wpm]
    by_cases h5 : s.total_keystrokes < 5
    · simp [h5]
    · have hq : ((now - s.session_start : Int) : ℚ) ≤ 0 := by exact_mod_cast h
      have hm : ¬ (0 < ((now - s.session_start : Int) : ℚ) / 60) := by
        push_neg
        exact div_nonpos_of_nonpos_of_nonneg hq (by norm_num)
      simp [h5, hm]
      omega
  · have h5 : ¬ s.total_keystrokes < 5 := by omega
    have hq : (0 : ℚ) < ((now - s.session_start : Int) : ℚ) := by exact_mod_cast h'
    have hm : 0 < ((now - s.session_start : Int) : ℚ) / 60 :=
      div_pos hq (by norm_num)
    simp [KeyStats.get_wpm, h5, hm]
    omega

/-- Ten key presses, all on one date, starting from a fresh aggregate: the
state of the spec's WPM example (`totalKeystrokes = 10`). -/
def wpmExample : KeyStats :=
  runAdds (KeyStats.new 0) (List.replicate 10 ("KEY_30", "2026-10-12"))

theorem get_wpm_spec_witness :
    wpmExample.get_wpm 120 = some 1 ∧ (KeyStats.new 0).get_wpm 60 = none := by
  constructor
  · have h := (get_wpm_spec wpmExample 120).2.2 (by decide) (by decide)
    have ht : wpmExample.total_keystrokes = 10 := by decide
    have hs : wpmExample.session_start = 0 := by decide
    rw [h, ht, hs]
    norm_num
  · exact (get_wpm_spec (KeyStats.new 0) 60).1 (by decide)

/-- The spec's top-keys example: counts `{a:5, b:9, c:9, d:1}`. -/
def topExample : KeyStats :=
  { KeyStats.new 0 with key_counts := [("a", 5), ("b", 9), ("c", 9), ("d", 1)] }

/-- C9: `get_top_keys` returns entries of `key_counts` sorted by count in
descending order, truncated to at most `limit`; on counts
`{a:5, b:9, c:9, d:1}`, `get_top_keys 2` returns exactly `b` and `c`. -/
theorem get_top_keys_spec (s : KeyStats) (limit : Nat) :
    List.Pairwise topKeyLE (s.get_top_keys limit) ∧
    (s.get_top_keys limit).length = min limit s.key_counts.length ∧
    ((s.get_top_keys limit).all
      (fun p => decide (p ∈ s.key_counts))) = true ∧
    topExample.get_top_keys 2 = [("b", 9), ("c", 9)] := by
  refine ⟨?_, ?_, ?_, by decide⟩
  · exact List.Pairwise.sublist (List.take_sublist _ _)
      (List.sorted_insertionSort topKeyLE s.key_counts)
  · rw [KeyStats.get_top_keys, List.length_take, List.length_insertionSort]
  · rw [List.all_eq_true]
    intro p hp
    rw [decide_eq_true_iff]
    exact (List.mem_insertionSort topKeyLE).mp
      (List.mem_of_mem_take hp)

/-!
Round-trip of the persisted JSON format.
-/

theorem decNat_int (n : Nat) : decNat (Json.int n) = some n := by
  simp [decNat, Int.natCast_nonneg, Int.toNat_natCast]

theorem decOptNat_enc (o : Option Nat) : decOptNat (encOptNat o) = some o := by
  cases o with
  | none => rfl
  | some n => simp [encOptNat, decOptNat, Int.natCast_nonneg, Int.toNat_natCast]

theorem decOptRat_enc (o : Option ℚ) : decOptRat (encOptRat o) = some o := by
  cases o <;> rfl

theorem decNatMapEntries_enc (m : List (String × Nat)) :
    decNatMapEntries (m.map fun p => (p.1, Json.int p.2)) = some m := by
  induction m with
  | nil => rfl
  | cons p rest ih => simp [decNatMapEntries, decNat_int, ih]

theorem decNatMap_enc (m : List (String × Nat)) :
    decNatMap (encNatMap m) = some m := by
  simp [decNatMap, encNatMap, decNatMapEntries_enc]

theorem decStrListElems_enc (l : List String) :
    decStrListElems (l.map Json.str) = some l := by
  induction l with
  | nil => rfl
  | cons s rest ih => simp [decStrListElems, ih]

theorem decStrList_enc (l : List String) : decStrList (encStrList l) = some l := by
  simp [decStrList, encStrList, decStrListElems_enc]

theorem decTypingSession_enc (ts : TypingSession) :
    decTypingSession (encTypingSession ts) = some ts := by
  simp [decTypingSession, encTypingSession, getField, List.lookup, decInt,
    decNat_int, decOptRat_enc]

theorem decSessionsElems_enc (l : List TypingSession) :
    decSessionsElems (l.map encTypingSession) = some l := by
  induction l with
  | nil => rfl
  | cons ts rest ih => simp [decSessionsElems, decTypingSession_enc, ih]

theorem decSessions_enc (l : List TypingSession) :
    decSessions (encSessions l) = some l := by
  simp [decSessions, encSessions, decSessionsElems_enc]

theorem decDayStats_enc (d : DayStats) :
    decDayStats (encDayStats d) = some d := by
  simp [decDayStats, encDayStats, getField, List.lookup, decNat_int,
    decOptNat_enc, decNatMap_enc]

theorem decDayMapEntries_enc (m : List (String × DayStats)) :
    decDayMapEntries (m.map fun p => (p.1, encDayStats p.2)) = some m := by
  induction m with
  | nil => rfl
  | cons p rest ih => simp [decDayMapEntries, decDayStats_enc, ih]

theorem decDayMap_enc (m : List (String × DayStats)) :
    decDayMap (encDayMap m) = some m := by
  simp [decDayMap, encDayMap, decDayMapEntries_enc]

/-- C4: serializing an aggregate and parsing the result yields the same
aggregate (`save_stats` then the load in `KeyLogger::new` is the identity),
so loading a file that holds the serialization of `s` returns `s`. -/
theorem save_load_roundtrip (s : KeyStats) (now : Int) :
    decodeKeyStats (encodeKeyStats s) = some s ∧
    loadStats (some (encodeKeyStats s)) now = s := by
  have h : decodeKeyStats (encodeKeyStats s) = some s := by
    simp [decodeKeyStats, encodeKeyStats, getField, List.lookup, decInt,
      decNat_int, decNatMap_enc, decStrList_enc, decSessions_enc, decDayMap_enc]
  exact ⟨h, by simp [loadStats, h]⟩

/-- C8: the load in `KeyLogger::new` yields a fresh aggregate when the file
is missing, and also when the content fails to parse; a malformed file is
never surfaced as an error (in particular a bare string parses to the fresh
aggregate). -/
theorem load_fresh_on_missing_or_corrupt (now : Int) (j : Json) :
    loadStats none now = KeyStats.new now ∧
    (decodeKeyStats j = none → loadStats (some j) now = KeyStats.new now) ∧
    loadStats (some (Json.str "not a stats file")) now = KeyStats.new now := by
  refine ⟨rfl, fun h => by simp [loadStats, h], rfl⟩

theorem load_fresh_witness :
    decodeKeyStats (Json.arr []) = none ∧
    loadStats (some (Json.arr [])) 0 = KeyStats.new 0 :=
  ⟨rfl, (load_fresh_on_missing_or_corrupt 0 (Json.arr [])).2.1 rfl⟩

/-!
Capture-loop snapshot ordering and the reset-save scenario.
-/

theorem savePhase_stats (st : LoopState) (inp : LoopInput) :
    (savePhase st inp).stats = st.stats := by
  by_cases h : inp.doSave <;> simp [savePhase, h]

theorem loopStep_stats (st : LoopState) (inp : LoopInput) :
    (loopStep st inp).stats = publishedSnapshot st inp := by
  rw [loopStep, savePhase_stats, publishedSnapshot]

theorem chain_totals (inputs : List LoopInput) (st : LoopState)
    (h : ∀ inp ∈ inputs, inp.reset = false) :
    List.Chain' (· ≤ ·)
      (st.stats.total_keystrokes ::
        (runLoop st inputs).map KeyStats.total_keystrokes) := by
  induction inputs generalizing st with
  | nil => exact List.chain'_singleton _
  | cons inp rest ih =>
      rw [runLoop, List.map_cons]
      refine List.chain'_cons.mpr ⟨?_, ?_⟩
      · have hr : inp.reset = false := h inp (by simp)
        rw [publishedSnapshot, resetPhase, hr]
        simp [eventsPhase, runAdds_total]
      · have := ih (loopStep st inp) (fun i hi => h i (by simp [hi]))
        rwa [loopStep_stats] at this

/-- C3 as stated is refuted by a reset: a run that records 50 key-downs in
one iteration and services a reset request in the next publishes the
snapshot totals `[50, 0]`, which are not non-decreasing. -/
def cexInputs : List LoopInput :=
  [⟨false, 0, List.replicate 50 ("KEY_30", "2026-10-12"), false⟩,
   ⟨true, 5, [], false⟩]

theorem snapshots_decrease_after_reset :
    ((runLoop ⟨KeyStats.new 0, none⟩ cexInputs).map KeyStats.total_keystrokes)
        = [50, 0] ∧
    ¬ List.Chain' (· ≤ ·)
      ((runLoop ⟨KeyStats.new 0, none⟩ cexInputs).map
        KeyStats.total_keystrokes) := by
  have h : ((runLoop ⟨KeyStats.new 0, none⟩ cexInputs).map
      KeyStats.total_keystrokes) = [50, 0] := by decide
  refine ⟨h, ?_⟩
  rw [h]
  simp [List.chain'_cons]

/-- C3, amended: across any run of the capture loop in which no reset
request is serviced, the published snapshots carry non-decreasing
`total_keystrokes` in publication order (each reset starts a new epoch that
may publish a smaller total). -/
theorem snapshots_monotone_without_reset (st : LoopState)
    (inputs : List LoopInput) (h : ∀ inp ∈ inputs, inp.reset = false) :
    List.Chain' (· ≤ ·)
      ((runLoop st inputs).map KeyStats.total_keystrokes) :=
  (chain_totals inputs st h).tail

/-- Inputs with no reset, used to instantiate the monotonicity theorem. -/
def monotoneInputs : List LoopInput :=
  [⟨false, 0, [("KEY_30", "2026-10-12"), ("KEY_31", "2026-10-12")], false⟩,
   ⟨false, 1, [("KEY_30", "2026-10-12")], true⟩]

theorem snapshots_monotone_witness :
    List.Chain' (· ≤ ·)
      ((runLoop ⟨KeyStats.new 0, none⟩ monotoneInputs).map
        KeyStats.total_keystrokes) :=
  snapshots_monotone_without_reset ⟨KeyStats.new 0, none⟩ monotoneInputs
    (by decide)

/-- An aggregate with 50 recorded keystrokes, the starting point of the
spec's reset scenario. -/
def st50 : KeyStats :=
  runAdds (KeyStats.new 0) (List.replicate 50 ("KEY_30", "2026-10-12"))

/-- C7 as stated is refuted when a key-down event is captured in the same
iteration that services the reset: the reset and its synchronous save do
happen first, but the very next published snapshot then carries the events
recorded after the reset, here total 1 rather than 0. -/
def cex7Input : LoopInput := ⟨true, 5, [("KEY_31", "2026-10-12")], false⟩

theorem snapshot_after_reset_with_event :
    st50.total_keystrokes = 50 ∧
    cex7Input.reset = true ∧
    (publishedSnapshot ⟨st50, none⟩ cex7Input).total_keystrokes = 1 ∧
    ¬ (publishedSnapshot ⟨st50, none⟩ cex7Input).total_keystrokes = 0 := by
  refine ⟨by decide, rfl, by decide, by decide⟩

/-- C7, amended: when a reset request is pending at the start of an
iteration, the loop resets the aggregate and synchronously saves it before
recording any event of that iteration, so the file persisted by the reset
branch holds the fresh aggregate with `total_keystrokes = 0`; the very next
published snapshot has `total_keystrokes` equal to the number of key-down
events captured in that same iteration, hence 0 whenever none arrive. -/
theorem reset_saved_before_events (st : LoopState) (inp : LoopInput)
    (h : inp.reset = true) :
    (resetPhase st inp).file = some (KeyStats.new inp.now) ∧
    (KeyStats.new inp.now).total_keystrokes = 0 ∧
    (publishedSnapshot st inp).total_keystrokes = inp.events.length ∧
    (inp.events = [] → (publishedSnapshot st inp).total_keystrokes = 0) := by
  have hr : resetPhase st inp
      = ⟨KeyStats.new inp.now, some (KeyStats.new inp.now)⟩ := by
    rw [resetPhase, h]
    simp
  refine ⟨by rw [hr], rfl, ?_, ?_⟩
  · rw [publishedSnapshot, hr]
    simp [eventsPhase, runAdds_total, KeyStats.new]
  · intro he
    rw [publishedSnapshot, hr]
    simp [eventsPhase, he, runAdds_nil, KeyStats.new]

/-- A reset iteration in which no key-down events are captured. -/
def resetOnlyInput : LoopInput := ⟨true, 7, [], false⟩

theorem reset_saved_witness :
    (resetPhase ⟨st50, none⟩ resetOnlyInput).file = some (KeyStats.new 7) ∧
    (publishedSnapshot ⟨st50, none⟩ resetOnlyInput).total_keystrokes = 0 :=
  ⟨(reset_saved_before_events ⟨st50, none⟩ resetOnlyInput rfl).1,
   (reset_saved_before_events ⟨st50, none⟩ resetOnlyInput rfl).2.2.2 rfl⟩
